import Mathlib

/-!
Verification of the trial-sequence generators of `src/relational/run.py`.

The two generators under study are pure functions of a seeded random
stream: `gen_wm_trials` builds a full factorial and applies one seeded
shuffle; `gen_main_trials` builds the base configuration multiset and runs
a randomized greedy placement with a streak constraint, bounded restarts
and a soft fallback, then enriches each placed item with freshly sampled
probe stimuli.

Embedding conventions:
* `random.Random(seed)` is modelled as an abstract stream: a state type
  `σ` together with the operations the generators call (`shuffle` at the
  two list types used, and `sample(STIM_NAMES, 2)`).  `RngSpec` records
  the documented contracts of those operations (a shuffle permutes its
  input; a 2-sample from the alphabet yields two distinct alphabet
  members).  "For every seed" becomes "for every stream satisfying the
  contracts", which covers every seed of the concrete generator.
* Python lists are Lean lists.  `placed.append(x)` is modelled by keeping
  the accumulator in reverse order (`x :: placedRev`) and reversing at the
  end; the Python reads `placed[-(i+1)] for i in range(MAX_STREAK)` become
  `placedRev.take MAX_STREAK`.
* The comma-joined strings `rule_sequence` / `test_sequence` are modelled
  as the underlying lists of stimulus names (the join is injective on this
  alphabet).
* `pool.pop(found)` is `pool.getD found 0` plus `pool.eraseIdx found`;
  the enumerate-scan for the first eligible pool item is `findFirstOk`.
-/

namespace Relational

/-- The four stimulus identifiers of `STIM_NAMES`. -/
inductive Stim : Type
  | circle
  | rectangle
  | star
  | triangle
deriving DecidableEq, Repr, Fintype

/-- The two rule kinds `'ABA'` and `'ABB'`. -/
inductive Rule : Type
  | ABA
  | ABB
deriving DecidableEq, Repr, Fintype

/-- `STIM_NAMES = ['circle', 'rectangle', 'star', 'triangle']`. -/
def STIM_NAMES : List Stim := [.circle, .rectangle, .star, .triangle]

/-- `WM_ISI_CONDITIONS = [1.0, 2.5]` (both values are exactly representable). -/
def WM_ISI_CONDITIONS : List ℚ := [1.0, 2.5]

/-- `WM_REPS = 3`. -/
def WM_REPS : Nat := 3

/-- `RULE_REPS = 5`. -/
def RULE_REPS : Nat := 5

/-- `MAX_STREAK = 3`. -/
def MAX_STREAK : Nat := 3

/-- The literal bound `200` of the restart loop `for _ in range(200)`. -/
def RESTART_LIMIT : Nat := 200

/-- A configuration item `{'A_stim': a, 'B_stim': b, 'rule_type': rule}`. -/
structure Config : Type where
  A_stim : Stim
  B_stim : Stim
  rule_type : Rule
deriving DecidableEq, Repr

/-- A WM trial record `{'sample_stim': stim, 'isi_condition': isi}`. -/
structure WmTrial : Type where
  sample_stim : Stim
  isi_condition : ℚ
deriving DecidableEq, Repr

/-- A main-task trial record as appended by `gen_main_trials`. -/
structure Trial : Type where
  rule_type : Rule
  A_stim : Stim
  B_stim : Stim
  A_prime : Stim
  B_prime : Stim
  rule_sequence : List Stim
  test_sequence : List Stim
  correct_next_stim : Stim
deriving DecidableEq, Repr

/-- The operations `gen_wm_trials` / `gen_main_trials` invoke on a
`random.Random(seed)` stream, over an abstract stream-state type `σ`:
`rng.shuffle` at the two list types used, and `rng.sample(STIM_NAMES, 2)`. -/
structure RngOps (σ : Type) : Type where
  shuffleIdx : List Nat → σ → List Nat × σ
  shuffleWm : List WmTrial → σ → List WmTrial × σ
  sample2 : σ → (Stim × Stim) × σ

/-- The documented contracts of the stream operations: a shuffle returns a
permutation of its input, and `rng.sample(STIM_NAMES, 2)` returns two
distinct members of the alphabet. -/
structure RngSpec {σ : Type} (ops : RngOps σ) : Prop where
  shuffleIdx_perm : ∀ (l : List Nat) (s : σ), (ops.shuffleIdx l s).1.Perm l
  shuffleWm_perm : ∀ (l : List WmTrial) (s : σ), (ops.shuffleWm l s).1.Perm l
  sample2_distinct : ∀ s : σ, ((ops.sample2 s).1.1 : Stim) ≠ (ops.sample2 s).1.2
  sample2_mem_left : ∀ s : σ, ((ops.sample2 s).1.1 : Stim) ∈ STIM_NAMES
  sample2_mem_right : ∀ s : σ, ((ops.sample2 s).1.2 : Stim) ∈ STIM_NAMES

/-- `configs`: the comprehension over `permutations(STIM_NAMES, 2)` crossed
with `['ABA', 'ABB']`.  Since the alphabet entries are pairwise distinct,
`permutations(_, 2)` is exactly the ordered pairs with distinct components,
enumerated first-component-major. -/
def configSpace : List Config :=
  ((STIM_NAMES.product STIM_NAMES).filter fun p => decide (p.1 ≠ p.2)).flatMap fun p =>
    [⟨p.1, p.2, .ABA⟩, ⟨p.1, p.2, .ABB⟩]

/-- `base = configs * RULE_REPS` — five concatenated copies, 120 items. -/
def base : List Config := (List.replicate RULE_REPS configSpace).flatten

/-- `base[idx]`.  All indices handled by the generator are in range (shown
in the safety theorem), so the default is never consulted. -/
def cfgAt (idx : Nat) : Config := base.getD idx ⟨.circle, .circle, .ABA⟩

/-- `base[idx]['rule_type']`. -/
def ruleIdx (idx : Nat) : Rule := (cfgAt idx).rule_type

/-- The streak test of the placement loop: if the last `MAX_STREAK`
placements all carry one rule label, that label is forbidden
(`tail = {...}; if len(tail) == 1`).  `placedRev` is the placed list in
reverse order, so the last placements are its first elements. -/
def forbiddenRule (placedRev : List Nat) : Option Rule :=
  if MAX_STREAK ≤ placedRev.length then
    match (placedRev.take MAX_STREAK).map ruleIdx with
    | r :: rest => if rest.all fun x => x == r then some r else none
    | [] => none
  else none

/-- The eligibility test of the scan
`if forbidden is None or base[idx]['rule_type'] != forbidden`. -/
def allowedIdx (forbidden : Option Rule) (idx : Nat) : Bool :=
  match forbidden with
  | none => true
  | some r => ruleIdx idx != r

/-- The scan `for pos, idx in enumerate(pool): ... found = pos; break`,
returning the position of the first eligible pool item (`none` = `-1`). -/
def findFirstOk (forbidden : Option Rule) : List Nat → Option Nat
  | [] => none
  | idx :: rest =>
    if allowedIdx forbidden idx then some 0
    else (findFirstOk forbidden rest).map (· + 1)

/-- The placement loop `while pool: ...`.  Each iteration either places one
pool item (`placed.append(pool.pop(found))`) or stops (pool empty, or
stuck with `found == -1`).  The fuel starts at the pool length, which the
loop can never exceed since every step removes one pool element. -/
def greedyGo : Nat → List Nat → List Nat → List Nat × List Nat
  | 0, placedRev, pool => (placedRev, pool)
  | fuel + 1, placedRev, pool =>
    match findFirstOk (forbiddenRule placedRev) pool with
    | none => (placedRev, pool)
    | some pos => greedyGo fuel (pool.getD pos 0 :: placedRev) (pool.eraseIdx pos)

/-- One restart attempt: run the placement loop on a shuffled index list
starting from `placed = []`, `pool = list(indices)`; returns the placed
list (restored to placement order) and the leftover pool. -/
def greedyAttempt (shuffled : List Nat) : List Nat × List Nat :=
  let res := greedyGo shuffled.length [] shuffled
  (res.1.reverse, res.2)

/-- The restart loop `for _ in range(200)`.  `rng.shuffle(indices)` mutates
`indices` in place, so each attempt reshuffles the previous attempt's
order and the loop threads the shuffled list through.  Returns the
accepted placement (if any), the indices as left by the last shuffle, and
the stream state after the last shuffle. -/
def attemptLoop {σ : Type} (ops : RngOps σ) :
    Nat → List Nat → σ → Option (List Nat) × List Nat × σ
  | 0, indices, s => (none, indices, s)
  | fuel + 1, indices, s =>
    let sh := ops.shuffleIdx indices s
    let placed := (greedyAttempt sh.1).1
    if placed.length = base.length then (some placed, sh.1, sh.2)
    else attemptLoop ops fuel sh.1 sh.2

/-- The chosen index order and the stream state entering enrichment:
the accepted placement on success, else the fallback `result = indices`
(the indices exactly as left by the final shuffle). -/
def genMainResult {σ : Type} (ops : RngOps σ) (s : σ) : List Nat × σ :=
  match attemptLoop ops RESTART_LIMIT (List.range base.length) s with
  | (some placed, _, s1) => (placed, s1)
  | (none, lastIndices, s1) => (lastIndices, s1)

/-- Whether some restart attempt placed all items (i.e. the soft
exhaustion fallback of line 164-165 was not taken). -/
def genMainSucceeds {σ : Type} (ops : RngOps σ) (s : σ) : Bool :=
  (attemptLoop ops RESTART_LIMIT (List.range base.length) s).1.isSome

/-- The enrichment loop `for idx in result:` — look up the configuration,
derive the rule sequence, draw `a_prime, b_prime = rng.sample(STIM_NAMES, 2)`
(advancing the stream in placement order) and build the trial record. -/
def mainEnrich {σ : Type} (ops : RngOps σ) : List Nat → σ → List Trial
  | [], _ => []
  | idx :: rest, s =>
    let cfg := cfgAt idx
    let drawn := ops.sample2 s
    let aP := drawn.1.1
    let bP := drawn.1.2
    { rule_type := cfg.rule_type
      A_stim := cfg.A_stim
      B_stim := cfg.B_stim
      A_prime := aP
      B_prime := bP
      rule_sequence :=
        if cfg.rule_type = .ABA then [cfg.A_stim, cfg.B_stim, cfg.A_stim]
        else [cfg.A_stim, cfg.B_stim, cfg.B_stim]
      test_sequence := [aP, bP]
      correct_next_stim := if cfg.rule_type = .ABA then aP else bP } ::
      mainEnrich ops rest drawn.2

/-- `gen_main_trials(seed)`, as a function of the seeded stream. -/
def gen_main_trials {σ : Type} (ops : RngOps σ) (s : σ) : List Trial :=
  let res := genMainResult ops s
  mainEnrich ops res.1 res.2

/-- The WM factorial comprehension: stimuli × ISI conditions × reps. -/
def wmBase : List WmTrial :=
  STIM_NAMES.flatMap fun stim =>
    WM_ISI_CONDITIONS.flatMap fun isi =>
      (List.range WM_REPS).map fun _ => ⟨stim, isi⟩

/-- `gen_wm_trials(seed)`: the factorial list under one seeded shuffle. -/
def gen_wm_trials {σ : Type} (ops : RngOps σ) (s : σ) : List WmTrial :=
  (ops.shuffleWm wmBase s).1

/-- Spec-side predicate (from the streak-bound property of the spec): some
window of `MAX_STREAK + 1 = 4` consecutive elements carries one label. -/
def hasStreakRun : List Rule → Bool
  | a :: b :: c :: d :: t => (a == b && b == c && c == d) || hasStreakRun (b :: c :: d :: t)
  | _ => false

/-- A concrete stream whose shuffles leave lists unchanged (the identity
permutation is one possible shuffle outcome) and whose 2-samples are
`(circle, rectangle)`; used to instantiate the universally quantified
theorems at a computable input. -/
def idOps : RngOps Unit where
  shuffleIdx l s := (l, s)
  shuffleWm l s := (l, s)
  sample2 s := ((.circle, .rectangle), s)

/-- A stream whose index shuffles sort all even base indices (rule `ABA`)
before all odd ones (rule `ABB`) — a legitimate permutation on which every
greedy attempt gets stuck, exhibiting the exhaustion fallback. -/
def stuckShuffle (l : List Nat) : List Nat :=
  l.filter (fun i => i % 2 == 0) ++ l.filter fun i => !(i % 2 == 0)

/-- The adversarial stream built from `stuckShuffle`. -/
def advOps : RngOps Unit where
  shuffleIdx l s := (stuckShuffle l, s)
  shuffleWm l s := (l, s)
  sample2 s := ((.circle, .rectangle), s)

/-- The index order every adversarial attempt produces. -/
def stuckIndices : List Nat := stuckShuffle (List.range base.length)

/-- The first trial record produced on the identity stream. -/
def sampleTrial : Trial :=
  { rule_type := .ABA
    A_stim := .circle
    B_stim := .rectangle
    A_prime := .circle
    B_prime := .rectangle
    rule_sequence := [.circle, .rectangle, .circle]
    test_sequence := [.circle, .rectangle]
    correct_next_stim := .circle }

/-! ### Properties of the streak predicate -/

theorem streak_mono_cons (a : Rule) {t : List Rule} (h : hasStreakRun t = true) :
    hasStreakRun (a :: t) = true := by
  match t with
  | [] => simp [hasStreakRun] at h
  | [b] => simp [hasStreakRun] at h
  | [b, c] => simp [hasStreakRun] at h
  | b :: c :: d :: t1 => simp [hasStreakRun, h]

theorem hasStreakRun_true_exists :
    ∀ l : List Rule, hasStreakRun l = true → ∃ p r s, l = p ++ r :: r :: r :: r :: s := by
  intro l
  induction l with
  | nil => intro h; simp [hasStreakRun] at h
  | cons a t ih =>
    intro h
    match t, ih, h with
    | [], _, h => simp [hasStreakRun] at h
    | [b], _, h => simp [hasStreakRun] at h
    | [b, c], _, h => simp [hasStreakRun] at h
    | b :: c :: d :: t1, ih, h =>
      rw [hasStreakRun] at h
      rcases Bool.or_eq_true_iff.mp h with hw | hrest
      · obtain ⟨⟨hab, hbc⟩, hcd⟩ := by
          simpa [Bool.and_eq_true, beq_iff_eq] using hw
        subst hab; subst hbc; subst hcd
        exact ⟨[], a, t1, rfl⟩
      · obtain ⟨p, r, s, hp⟩ := ih hrest
        exact ⟨a :: p, r, s, by rw [List.cons_append, hp]⟩

theorem hasStreakRun_eq_true_iff (l : List Rule) :
    hasStreakRun l = true ↔ ∃ p r s, l = p ++ r :: r :: r :: r :: s := by
  constructor
  · exact hasStreakRun_true_exists l
  · rintro ⟨p, r, s, rfl⟩
    induction p with
    | nil => simp [hasStreakRun]
    | cons a p1 ih => exact List.cons_append a p1 _ ▸ streak_mono_cons a ih

theorem hasStreakRun_reverse (l : List Rule) :
    hasStreakRun l.reverse = hasStreakRun l := by
  have key : ∀ m : List Rule, hasStreakRun m = true → hasStreakRun m.reverse = true := by
    intro m hm
    obtain ⟨p, r, s, rfl⟩ := hasStreakRun_true_exists m hm
    apply (hasStreakRun_eq_true_iff _).mpr
    refine ⟨s.reverse, r, p.reverse, ?_⟩
    simp [List.reverse_append]
  cases hl : hasStreakRun l with
  | true => exact key l hl
  | false =>
    cases hr : hasStreakRun l.reverse with
    | true =>
      have := key l.reverse hr
      rw [List.reverse_reverse] at this
      rw [this] at hl
      exact absurd hl (by simp)
    | false => rfl

/-! ### Properties of the placement scan -/

theorem findFirstOk_some {fb : Option Rule} :
    ∀ {pool : List Nat} {pos : Nat}, findFirstOk fb pool = some pos →
      pos < pool.length ∧ allowedIdx fb (pool.getD pos 0) = true := by
  intro pool
  induction pool with
  | nil => intro pos h; simp [findFirstOk] at h
  | cons idx rest ih =>
    intro pos h
    rw [findFirstOk] at h
    by_cases ha : allowedIdx fb idx = true
    · rw [if_pos ha] at h
      obtain rfl : (0 : Nat) = pos := by simpa using h
      exact ⟨by simp, by simpa using ha⟩
    · rw [if_neg ha] at h
      obtain ⟨p1, hp1, rfl⟩ := Option.map_eq_some'.mp h
      obtain ⟨hlt, hall⟩ := ih hp1
      exact ⟨by simpa using Nat.succ_lt_succ hlt, by simpa using hall⟩

theorem perm_cons_eraseIdx :
    ∀ (pool : List Nat) (pos : Nat), pos < pool.length →
      pool.Perm (pool.getD pos 0 :: pool.eraseIdx pos) := by
  intro pool
  induction pool with
  | nil => intro pos h; simp at h
  | cons a rest ih =>
    intro pos h
    cases pos with
    | zero => simp
    | succ n =>
      have hn : n < rest.length := Nat.lt_of_succ_lt_succ (by simpa using h)
      rw [List.getD_cons_succ, List.eraseIdx_cons_succ]
      exact ((ih n hn).cons a).trans (List.Perm.swap (rest.getD n 0) a (rest.eraseIdx n))

/-- The placement step never creates a streak: if the last three placed
items share a rule, the scan only accepts an item with a different rule. -/
theorem step_no_streak {placedRev : List Nat} {idx : Nat}
    (hallow : allowedIdx (forbiddenRule placedRev) idx = true)
    (h : hasStreakRun (placedRev.map ruleIdx) = false) :
    hasStreakRun ((idx :: placedRev).map ruleIdx) = false := by
  match placedRev with
  | [] => rfl
  | [i1] => rfl
  | [i1, i2] => rfl
  | i1 :: i2 :: i3 :: rest =>
    simp only [List.map_cons] at h ⊢
    rw [hasStreakRun, h, Bool.or_false]
    by_contra hw
    rw [Bool.not_eq_false] at hw
    obtain ⟨⟨h01, h12⟩, h23⟩ := by
      simpa [Bool.and_eq_true, beq_iff_eq] using hw
    have hforb : forbiddenRule (i1 :: i2 :: i3 :: rest) = some (ruleIdx i1) := by
      rw [forbiddenRule, if_pos (by simp [MAX_STREAK])]
      have htake : ((i1 :: i2 :: i3 :: rest).take MAX_STREAK).map ruleIdx
          = [ruleIdx i1, ruleIdx i2, ruleIdx i3] := by
        simp [MAX_STREAK]
      rw [htake]
      simp [← h12, ← h12.trans h23]
    rw [hforb] at hallow
    rw [allowedIdx] at hallow
    have : ruleIdx idx ≠ ruleIdx i1 := by simpa using hallow
    exact this (h01.trans rfl)

/-- The placement loop preserves the no-streak invariant of the rules of
the (reversed) placed list. -/
theorem greedyGo_no_streak :
    ∀ (fuel : Nat) (placedRev pool : List Nat),
      hasStreakRun (placedRev.map ruleIdx) = false →
      hasStreakRun (((greedyGo fuel placedRev pool).1).map ruleIdx) = false := by
  intro fuel
  induction fuel with
  | zero => intro pr pool h; exact h
  | succ n ih =>
    intro pr pool h
    rw [greedyGo]
    cases hf : findFirstOk (forbiddenRule pr) pool with
    | none => exact h
    | some pos =>
      obtain ⟨_, hallow⟩ := findFirstOk_some hf
      exact ih _ _ (step_no_streak hallow h)

/-- The placement loop conserves the multiset of indices: placed plus
leftover pool is a permutation of the inputs. -/
theorem greedyGo_perm :
    ∀ (fuel : Nat) (placedRev pool : List Nat),
      (((greedyGo fuel placedRev pool).1) ++ ((greedyGo fuel placedRev pool).2)).Perm
        (placedRev ++ pool) := by
  intro fuel
  induction fuel with
  | zero => intro pr pool; exact List.Perm.refl _
  | succ n ih =>
    intro pr pool
    rw [greedyGo]
    cases hf : findFirstOk (forbiddenRule pr) pool with
    | none => exact List.Perm.refl _
    | some pos =>
      obtain ⟨hlt, _⟩ := findFirstOk_some hf
      exact (ih (pool.getD pos 0 :: pr) (pool.eraseIdx pos)).trans
        (List.perm_middle.symm.trans
          (List.Perm.append_left pr (perm_cons_eraseIdx pool pos hlt).symm))

/-! ### Properties of the restart loop -/

/-- An accepted attempt never violates the streak bound. -/
theorem attemptLoop_some_no_streak {σ : Type} {ops : RngOps σ} :
    ∀ {fuel : Nat} {indices : List Nat} {s : σ} {placed lastIdx : List Nat} {s1 : σ},
      attemptLoop ops fuel indices s = (some placed, lastIdx, s1) →
      hasStreakRun (placed.map ruleIdx) = false := by
  intro fuel
  induction fuel with
  | zero => intro indices s placed lastIdx s1 h; simp [attemptLoop] at h
  | succ n ih =>
    intro indices s placed lastIdx s1 h
    rw [attemptLoop] at h
    by_cases hs : ((greedyAttempt (ops.shuffleIdx indices s).1).1).length = base.length
    · rw [if_pos hs] at h
      obtain rfl : (greedyAttempt (ops.shuffleIdx indices s).1).1 = placed :=
        congrArg (fun x => x.1.getD []) h
      rw [greedyAttempt]
      rw [List.map_reverse, hasStreakRun_reverse]
      exact greedyGo_no_streak _ [] _ rfl
    · rw [if_neg hs] at h
      exact ih h

/-- An accepted attempt is a permutation of the indices it started from. -/
theorem attemptLoop_some_perm {σ : Type} {ops : RngOps σ} (hspec : RngSpec ops) :
    ∀ {fuel : Nat} {indices : List Nat} {s : σ} {placed lastIdx : List Nat} {s1 : σ},
      indices.length = base.length →
      attemptLoop ops fuel indices s = (some placed, lastIdx, s1) →
      placed.Perm indices := by
  intro fuel
  induction fuel with
  | zero => intro indices s placed lastIdx s1 _ h; simp [attemptLoop] at h
  | succ n ih =>
    intro indices s placed lastIdx s1 hlen h
    rw [attemptLoop] at h
    have hshperm : ((ops.shuffleIdx indices s).1).Perm indices := hspec.shuffleIdx_perm _ _
    by_cases hs : ((greedyAttempt (ops.shuffleIdx indices s).1).1).length = base.length
    · rw [if_pos hs] at h
      obtain rfl : (greedyAttempt (ops.shuffleIdx indices s).1).1 = placed :=
        congrArg (fun x => x.1.getD []) h
      set sh := (ops.shuffleIdx indices s).1 with hsh
      have hgo := greedyGo_perm sh.length [] sh
      set pr := (greedyGo sh.length [] sh).1 with hpr
      set rest := (greedyGo sh.length [] sh).2 with hrest
      have hlen2 : pr.length + rest.length = sh.length := by
        have := hgo.length_eq
        simpa [List.length_append] using this
      have hprlen : pr.length = base.length := by
        have : pr.reverse.length = base.length := hs
        simpa using this
      have hshlen : sh.length = base.length := by
        rw [hshperm.length_eq, hlen]
      have hrest0 : rest.length = 0 := by omega
      have hrestnil : rest = [] := List.length_eq_zero.mp hrest0
      have hprperm : pr.Perm sh := by
        have := hgo
        rw [hrestnil, List.append_nil, List.nil_append] at this
        exact this
      exact ((List.reverse_perm pr).trans hprperm).trans hshperm
    · rw [if_neg hs] at h
      exact (ih (by rw [hshperm.length_eq, hlen]) h).trans hshperm

/-- The indices list as left by the last executed shuffle is a permutation
of the starting indices. -/
theorem attemptLoop_last_perm {σ : Type} {ops : RngOps σ} (hspec : RngSpec ops) :
    ∀ (fuel : Nat) (indices : List Nat) (s : σ),
      ((attemptLoop ops fuel indices s).2.1).Perm indices := by
  intro fuel
  induction fuel with
  | zero => intro indices s; exact List.Perm.refl _
  | succ n ih =>
    intro indices s
    rw [attemptLoop]
    have hshperm : ((ops.shuffleIdx indices s).1).Perm indices := hspec.shuffleIdx_perm _ _
    by_cases hs : ((greedyAttempt (ops.shuffleIdx indices s).1).1).length = base.length
    · rw [if_pos hs]; exact hshperm
    · rw [if_neg hs]
      exact (ih _ _).trans hshperm

/-- Whichever branch is taken, the chosen index order is a permutation of
`range(len(base))`. -/
theorem genMainResult_perm {σ : Type} {ops : RngOps σ} (hspec : RngSpec ops) (s : σ) :
    ((genMainResult ops s).1).Perm (List.range base.length) := by
  rw [genMainResult]
  rcases hloop : attemptLoop ops RESTART_LIMIT (List.range base.length) s with ⟨o, lastIdx, s1⟩
  cases o with
  | some placed =>
    exact attemptLoop_some_perm hspec (by simp) hloop
  | none =>
    have := attemptLoop_last_perm hspec RESTART_LIMIT (List.range base.length) s
    rw [hloop] at this
    exact this

/-! ### Properties of the enrichment loop -/

theorem mainEnrich_length {σ : Type} (ops : RngOps σ) :
    ∀ (l : List Nat) (s : σ), (mainEnrich ops l s).length = l.length := by
  intro l
  induction l with
  | nil => intro s; rfl
  | cons idx rest ih => intro s; simp [mainEnrich, ih]

theorem mainEnrich_map_rule {σ : Type} (ops : RngOps σ) :
    ∀ (l : List Nat) (s : σ),
      (mainEnrich ops l s).map Trial.rule_type = l.map ruleIdx := by
  intro l
  induction l with
  | nil => intro s; rfl
  | cons idx rest ih => intro s; simp [mainEnrich, ih, ruleIdx]

theorem mainEnrich_map_config {σ : Type} (ops : RngOps σ) :
    ∀ (l : List Nat) (s : σ),
      (mainEnrich ops l s).map (fun t => (t.A_stim, t.B_stim, t.rule_type)) =
        l.map fun idx => ((cfgAt idx).A_stim, (cfgAt idx).B_stim, (cfgAt idx).rule_type) := by
  intro l
  induction l with
  | nil => intro s; rfl
  | cons idx rest ih => intro s; simp [mainEnrich, ih]

theorem mainEnrich_fields {σ : Type} (ops : RngOps σ) :
    ∀ (l : List Nat) (s : σ), ∀ t ∈ mainEnrich ops l s,
      t.rule_sequence = (if t.rule_type = .ABA then [t.A_stim, t.B_stim, t.A_stim]
        else [t.A_stim, t.B_stim, t.B_stim]) ∧
      t.test_sequence = [t.A_prime, t.B_prime] ∧
      t.correct_next_stim = (if t.rule_type = .ABA then t.A_prime else t.B_prime) := by
  intro l
  induction l with
  | nil => intro s t ht; simp [mainEnrich] at ht
  | cons idx rest ih =>
    intro s t ht
    rw [mainEnrich] at ht
    rcases List.mem_cons.mp ht with rfl | hmem
    · refine ⟨rfl, rfl, rfl⟩
    · exact ih _ t hmem

theorem mainEnrich_distinct {σ : Type} {ops : RngOps σ} (hspec : RngSpec ops) :
    ∀ (l : List Nat) (s : σ), ∀ t ∈ mainEnrich ops l s, t.A_prime ≠ t.B_prime := by
  intro l
  induction l with
  | nil => intro s t ht; simp [mainEnrich] at ht
  | cons idx rest ih =>
    intro s t ht
    rw [mainEnrich] at ht
    rcases List.mem_cons.mp ht with rfl | hmem
    · exact hspec.sample2_distinct s
    · exact ih _ t hmem

/-! ### Indexing the base list -/

theorem map_getD_range {α : Type} (l : List α) (d : α) :
    (List.range l.length).map (fun i => l.getD i d) = l := by
  induction l with
  | nil => rfl
  | cons a t ih =>
    rw [List.length_cons, List.range_succ_eq_map, List.map_cons, List.map_map]
    refine congrArg₂ (· :: ·) (by simp) ?_
    have : ((fun i => (a :: t).getD i d) ∘ Nat.succ) = fun i => t.getD i d := by
      funext i; simp
    rw [this, ih]

theorem map_cfgAt_range : (List.range base.length).map cfgAt = base := by
  have h := map_getD_range base (⟨.circle, .circle, .ABA⟩ : Config)
  have he : cfgAt = fun i => base.getD i ⟨.circle, .circle, .ABA⟩ := rfl
  rw [he, h]

theorem base_length_eq : base.length = 120 := by decide

theorem gen_main_trials_eq {σ : Type} (ops : RngOps σ) (s : σ) :
    gen_main_trials ops s = mainEnrich ops (genMainResult ops s).1 (genMainResult ops s).2 :=
  rfl

theorem gen_main_trials_length {σ : Type} {ops : RngOps σ} (hspec : RngSpec ops) (s : σ) :
    (gen_main_trials ops s).length = 120 := by
  rw [gen_main_trials_eq, mainEnrich_length, (genMainResult_perm hspec s).length_eq]
  simpa using base_length_eq

/-! ### The two concrete streams -/

theorem rngSpec_idOps : RngSpec idOps := by
  refine ⟨?_, ?_, ?_, ?_, ?_⟩
  · intro l s; exact List.Perm.refl l
  · intro l s; exact List.Perm.refl l
  · intro s; cases s; decide
  · intro s; cases s; decide
  · intro s; cases s; decide

theorem rngSpec_advOps : RngSpec advOps := by
  refine ⟨?_, ?_, ?_, ?_, ?_⟩
  · intro l s; exact List.filter_append_perm (fun i => i % 2 == 0) l
  · intro l s; exact List.Perm.refl l
  · intro s; cases s; decide
  · intro s; cases s; decide
  · intro s; cases s; decide

set_option maxRecDepth 10000 in
theorem adv_idem : stuckShuffle stuckIndices = stuckIndices := by decide

set_option maxRecDepth 10000 in
theorem adv_stuck_len : ¬ ((greedyAttempt stuckIndices).1.length = base.length) := by decide

theorem adv_loop : ∀ n : Nat, attemptLoop advOps n stuckIndices () = (none, stuckIndices, ()) := by
  intro n
  induction n with
  | zero => rfl
  | succ m ih =>
    rw [attemptLoop]
    have h1 : advOps.shuffleIdx stuckIndices () = (stuckIndices, ()) := by
      show (stuckShuffle stuckIndices, ()) = (stuckIndices, ())
      rw [adv_idem]
    simp only [h1]
    rw [if_neg adv_stuck_len]
    exact ih

theorem adv_attempt :
    attemptLoop advOps RESTART_LIMIT (List.range base.length) () = (none, stuckIndices, ()) := by
  rw [show RESTART_LIMIT = 199 + 1 from rfl, attemptLoop]
  have h1 : advOps.shuffleIdx (List.range base.length) () = (stuckIndices, ()) := rfl
  simp only [h1]
  rw [if_neg adv_stuck_len]
  exact adv_loop 199

theorem adv_fails : genMainSucceeds advOps () = false := by
  rw [genMainSucceeds, adv_attempt]
  rfl

theorem adv_result : genMainResult advOps () = (stuckIndices, ()) := by
  rw [genMainResult, adv_attempt]

theorem adv_trials : gen_main_trials advOps () = mainEnrich advOps stuckIndices () := by
  rw [gen_main_trials_eq, adv_result]

set_option maxRecDepth 10000 in
theorem adv_streak :
    hasStreakRun ((gen_main_trials advOps ()).map Trial.rule_type) = true := by
  rw [adv_trials, mainEnrich_map_rule]
  decide

set_option maxRecDepth 10000 in
theorem adv_length : (gen_main_trials advOps ()).length = 120 := by
  rw [adv_trials, mainEnrich_length]
  decide

/-- On the exhaustion path the generator just returns the enrichment of
the indices as left by the last shuffle (`result = indices`, line 165). -/
theorem fallback_eq {σ : Type} (ops : RngOps σ) (s : σ)
    (hfail : genMainSucceeds ops s = false) :
    gen_main_trials ops s =
      mainEnrich ops (attemptLoop ops RESTART_LIMIT (List.range base.length) s).2.1
        (attemptLoop ops RESTART_LIMIT (List.range base.length) s).2.2 := by
  rw [gen_main_trials_eq, genMainResult]
  rw [genMainSucceeds] at hfail
  rcases hloop : attemptLoop ops RESTART_LIMIT (List.range base.length) s with ⟨o, li, s1⟩
  cases o with
  | some placed => rw [hloop] at hfail; simp at hfail
  | none => rfl

/-! ### Claims -/

/-- Claim C1: for every seeded stream, if the greedy construction succeeds
(some restart attempt places all 120 items, so the soft-degradation
fallback is not taken), then no contiguous window of `MAX_STREAK + 1 = 4`
trials in the output of `gen_main_trials` carries one rule label — no run
of identical `rule_type` values exceeds 3. -/
theorem C1_streak_bound {σ : Type} (ops : RngOps σ) (s : σ)
    (hsucc : genMainSucceeds ops s = true) :
    hasStreakRun ((gen_main_trials ops s).map Trial.rule_type) = false := by
  rw [gen_main_trials_eq, mainEnrich_map_rule, genMainResult]
  rw [genMainSucceeds] at hsucc
  rcases hloop : attemptLoop ops RESTART_LIMIT (List.range base.length) s with ⟨o, li, s1⟩
  cases o with
  | none => rw [hloop] at hsucc; simp at hsucc
  | some placed => exact attemptLoop_some_no_streak hloop

set_option maxRecDepth 10000 in
/-- Witness for C1 at the identity stream: the greedy construction
succeeds there and the produced rule labels contain no run of four. -/
theorem C1_streak_bound_witness :
    genMainSucceeds idOps () = true ∧
      hasStreakRun ((gen_main_trials idOps ()).map Trial.rule_type) = false :=
  ⟨by decide, C1_streak_bound idOps () (by decide)⟩

/-- Claim C2: for every seeded stream, the multiset of
`(A_stim, B_stim, rule_type)` triples of the output of `gen_main_trials`
is exactly `RULE_REPS = 5` copies of the 24-element configuration space
(every ordered pair of distinct stimuli crossed with both rules), and the
output has exactly 120 trials — on the successful path and on the
exhaustion fallback path alike. -/
theorem C2_multiset_conservation {σ : Type} (ops : RngOps σ) (s : σ)
    (hspec : RngSpec ops) :
    ((gen_main_trials ops s).map fun t => (t.A_stim, t.B_stim, t.rule_type)).Perm
      (base.map fun c => (c.A_stim, c.B_stim, c.rule_type)) ∧
    base = (List.replicate RULE_REPS configSpace).flatten ∧
    configSpace.length = 24 ∧
    (∀ a b : Stim, a ≠ b → ∀ r : Rule, (⟨a, b, r⟩ : Config) ∈ configSpace) ∧
    (gen_main_trials ops s).length = 120 := by
  refine ⟨?_, rfl, by decide, by decide, gen_main_trials_length hspec s⟩
  rw [gen_main_trials_eq, mainEnrich_map_config]
  have hperm := (genMainResult_perm hspec s).map
    fun idx => ((cfgAt idx).A_stim, (cfgAt idx).B_stim, (cfgAt idx).rule_type)
  refine hperm.trans ?_
  have hbase : (List.range base.length).map
      (fun idx => ((cfgAt idx).A_stim, (cfgAt idx).B_stim, (cfgAt idx).rule_type)) =
      base.map fun c => (c.A_stim, c.B_stim, c.rule_type) := by
    conv_rhs => rw [← map_cfgAt_range]
    rw [List.map_map]
    rfl
  rw [hbase]

set_option maxRecDepth 10000 in
/-- Witness for C2 at the identity stream. -/
theorem C2_multiset_conservation_witness :
    RngSpec idOps ∧ (gen_main_trials idOps ()).length = 120 :=
  ⟨rngSpec_idOps, (C2_multiset_conservation idOps () rngSpec_idOps).2.2.2.2⟩

/-- Claim C3: both generators are deterministic in the seed — as embedded
they are pure functions of the seeded stream and the fixed parameters, so
equal streams give identical output lists for `gen_main_trials` and for
`gen_wm_trials`. -/
theorem C3_determinism {σ : Type} (ops1 ops2 : RngOps σ) (s1 s2 : σ)
    (hops : ops1 = ops2) (hs : s1 = s2) :
    gen_main_trials ops1 s1 = gen_main_trials ops2 s2 ∧
      gen_wm_trials ops1 s1 = gen_wm_trials ops2 s2 := by
  subst hops; subst hs; exact ⟨rfl, rfl⟩

/-- Witness for C3 at the identity stream. -/
theorem C3_determinism_witness :
    gen_main_trials idOps () = gen_main_trials idOps () ∧
      gen_wm_trials idOps () = gen_wm_trials idOps () :=
  C3_determinism idOps idOps () () rfl rfl

/-- Claim C4 counterexample: a legitimate stream (it satisfies every
`RngSpec` contract) on which all restart attempts get stuck; the degraded
result is returned as an ordinary 120-element trial list that violates
the streak bound — `gen_main_trials` returns no flag and logs nothing
(its result type carries no degradation indicator), so the claim that the
exhaustion outcome is "reported via a distinguishable result flag and
logged" is false of the code. -/
theorem C4_counterexample :
    RngSpec advOps ∧ genMainSucceeds advOps () = false ∧
      hasStreakRun ((gen_main_trials advOps ()).map Trial.rule_type) = true ∧
      (gen_main_trials advOps ()).length = 120 :=
  ⟨rngSpec_advOps, adv_fails, adv_streak, adv_length⟩

/-- Claim C4 (amended): when all bounded restart attempts become stuck,
`gen_main_trials` silently returns the trials built from the indices as
left by the last shuffle — in exactly the same unflagged form as a
successful result, with no logging; the degradation is detectable only by
re-checking the streak bound on the output. -/
theorem C4_fallback_unflagged {σ : Type} (ops : RngOps σ) (s : σ)
    (hfail : genMainSucceeds ops s = false) :
    gen_main_trials ops s =
      mainEnrich ops (attemptLoop ops RESTART_LIMIT (List.range base.length) s).2.1
        (attemptLoop ops RESTART_LIMIT (List.range base.length) s).2.2 :=
  fallback_eq ops s hfail

/-- Witness for the amended C4 at the adversarial stream. -/
theorem C4_fallback_unflagged_witness :
    genMainSucceeds advOps () = false ∧
      gen_main_trials advOps () =
        mainEnrich advOps (attemptLoop advOps RESTART_LIMIT (List.range base.length) ()).2.1
          (attemptLoop advOps RESTART_LIMIT (List.range base.length) ()).2.2 :=
  ⟨adv_fails, C4_fallback_unflagged advOps () adv_fails⟩

/-- Claim C5: the restart loop makes at most `RESTART_LIMIT = 200`
attempts; if every attempt gets stuck, `gen_main_trials` neither raises
nor loops: it builds the trial records from the indices as left by the
last shuffle, which are still a full permutation of all 120 base indices,
and returns a 120-trial list. -/
theorem C5_bounded_restart_fallback {σ : Type} (ops : RngOps σ) (s : σ)
    (hspec : RngSpec ops) (hfail : genMainSucceeds ops s = false) :
    RESTART_LIMIT = 200 ∧
    gen_main_trials ops s =
      mainEnrich ops (attemptLoop ops RESTART_LIMIT (List.range base.length) s).2.1
        (attemptLoop ops RESTART_LIMIT (List.range base.length) s).2.2 ∧
    ((attemptLoop ops RESTART_LIMIT (List.range base.length) s).2.1).Perm
      (List.range base.length) ∧
    (gen_main_trials ops s).length = 120 :=
  ⟨rfl, fallback_eq ops s hfail, attemptLoop_last_perm hspec _ _ _,
    gen_main_trials_length hspec s⟩

/-- Witness for C5 at the adversarial stream. -/
theorem C5_bounded_restart_fallback_witness :
    RngSpec advOps ∧ genMainSucceeds advOps () = false ∧
      (gen_main_trials advOps ()).length = 120 :=
  ⟨rngSpec_advOps, adv_fails,
    (C5_bounded_restart_fallback advOps () rngSpec_advOps adv_fails).2.2.2⟩

/-- Claim C6 counterexample: no configuration-time validation exists in
the code — on a legitimate stream on which every attempt gets stuck, the
generator silently runs to restart exhaustion and returns the fallback
enrichment; no `ConfigurationError` (or any error) is ever raised, so the
claim that unsatisfiable parameters are "rejected ... rather than
silently looping to restart exhaustion" is false of the code, which has
no rejection mechanism at all. -/
theorem C6_counterexample :
    RngSpec advOps ∧ genMainSucceeds advOps () = false ∧
      gen_main_trials advOps () = mainEnrich advOps stuckIndices () :=
  ⟨rngSpec_advOps, adv_fails, adv_trials⟩

/-- Claim C6 (amended): the code performs no parameter validation and can
raise no `ConfigurationError`; its fixed parameters do satisfy the
satisfiability criterion (`MAX_STREAK = 3` is far below the 60 items of
each rule label in the base multiset), and `gen_main_trials` returns a
full 120-trial list unconditionally — on exhaustion it silently degrades
instead of rejecting. -/
theorem C6_no_validation {σ : Type} (ops : RngOps σ) (s : σ) (hspec : RngSpec ops) :
    MAX_STREAK < (base.map Config.rule_type).count Rule.ABA ∧
    MAX_STREAK < (base.map Config.rule_type).count Rule.ABB ∧
    (gen_main_trials ops s).length = 120 :=
  ⟨by decide, by decide, gen_main_trials_length hspec s⟩

/-- Witness for the amended C6 at the identity stream. -/
theorem C6_no_validation_witness :
    RngSpec idOps ∧ (gen_main_trials idOps ()).length = 120 :=
  ⟨rngSpec_idOps, (C6_no_validation idOps () rngSpec_idOps).2.2⟩

/-- Claim C7: for every seeded stream, every trial record produced by
`gen_main_trials` has distinct probe stimuli, `A_prime ≠ B_prime`. -/
theorem C7_probe_distinct {σ : Type} (ops : RngOps σ) (s : σ) (hspec : RngSpec ops) :
    ∀ t ∈ gen_main_trials ops s, t.A_prime ≠ t.B_prime := by
  rw [gen_main_trials_eq]
  exact mainEnrich_distinct hspec _ _

set_option maxRecDepth 10000 in
/-- Witness for C7 at the identity stream and its first trial record. -/
theorem C7_probe_distinct_witness :
    RngSpec idOps ∧ sampleTrial ∈ gen_main_trials idOps () ∧
      sampleTrial.A_prime ≠ sampleTrial.B_prime :=
  ⟨rngSpec_idOps, by decide, C7_probe_distinct idOps () rngSpec_idOps sampleTrial (by decide)⟩

/-- Claim C8: for every seeded stream, every trial record of
`gen_main_trials` satisfies the data-model derivations: `rule_sequence` is
`[A, B, A]` for rule `ABA` and `[A, B, B]` for rule `ABB`, `test_sequence`
is `[A_prime, B_prime]`, and `correct_next_stim` is `A_prime` for `ABA`
and `B_prime` for `ABB`. -/
theorem C8_derived_fields {σ : Type} (ops : RngOps σ) (s : σ) :
    ∀ t ∈ gen_main_trials ops s,
      t.rule_sequence = (if t.rule_type = .ABA then [t.A_stim, t.B_stim, t.A_stim]
        else [t.A_stim, t.B_stim, t.B_stim]) ∧
      t.test_sequence = [t.A_prime, t.B_prime] ∧
      t.correct_next_stim = (if t.rule_type = .ABA then t.A_prime else t.B_prime) := by
  rw [gen_main_trials_eq]
  exact mainEnrich_fields ops _ _

set_option maxRecDepth 10000 in
/-- Witness for C8 at the identity stream and its first trial record. -/
theorem C8_derived_fields_witness :
    sampleTrial ∈ gen_main_trials idOps () ∧
      (sampleTrial.rule_sequence =
        (if sampleTrial.rule_type = .ABA
          then [sampleTrial.A_stim, sampleTrial.B_stim, sampleTrial.A_stim]
          else [sampleTrial.A_stim, sampleTrial.B_stim, sampleTrial.B_stim]) ∧
       sampleTrial.test_sequence = [sampleTrial.A_prime, sampleTrial.B_prime] ∧
       sampleTrial.correct_next_stim =
        (if sampleTrial.rule_type = .ABA then sampleTrial.A_prime else sampleTrial.B_prime)) :=
  ⟨by decide, C8_derived_fields idOps () sampleTrial (by decide)⟩

/-- Claim C9: for every seeded stream, `gen_wm_trials` outputs a
permutation of the full factorial (so exactly `WM_REPS = 3` occurrences
of every (stimulus, ISI-condition) pair and 24 trials in all); the
shuffle is a single permutation with no further constraint. -/
theorem C9_wm_factorial {σ : Type} (ops : RngOps σ) (s : σ) (hspec : RngSpec ops) :
    (gen_wm_trials ops s).Perm wmBase ∧ (gen_wm_trials ops s).length = 24 ∧
    ∀ st ∈ STIM_NAMES, ∀ isi ∈ WM_ISI_CONDITIONS,
      (gen_wm_trials ops s).count ⟨st, isi⟩ = WM_REPS := by
  have hperm : (gen_wm_trials ops s).Perm wmBase := hspec.shuffleWm_perm wmBase s
  refine ⟨hperm, hperm.length_eq.trans (by decide), ?_⟩
  intro st hst isi hisi
  rw [hperm.count_eq]
  fin_cases hst <;> fin_cases hisi <;>
    norm_num [wmBase, STIM_NAMES, WM_ISI_CONDITIONS, WM_REPS, List.count_cons,
      List.count_replicate, WmTrial.mk.injEq] <;>
    decide

/-- Witness for C9 at the identity stream and the (circle, 1.0) cell. -/
theorem C9_wm_factorial_witness :
    RngSpec idOps ∧ Stim.circle ∈ STIM_NAMES ∧ (1.0 : ℚ) ∈ WM_ISI_CONDITIONS ∧
      (gen_wm_trials idOps ()).count ⟨.circle, 1.0⟩ = WM_REPS ∧
      (gen_wm_trials idOps ()).length = 24 :=
  ⟨rngSpec_idOps, by decide, by simp [WM_ISI_CONDITIONS],
    (C9_wm_factorial idOps () rngSpec_idOps).2.2 .circle (by decide) 1.0
      (by simp [WM_ISI_CONDITIONS]),
    (C9_wm_factorial idOps () rngSpec_idOps).2.1⟩

/-- Claim C10: for every seeded stream, both generators return full lists
without any failure — `gen_main_trials` always yields 120 trials,
`gen_wm_trials` always yields 24, and every index the placement ever
hands to the enrichment loop is within the bounds of `base` (so every
`base[idx]` lookup of the source is in range). -/
theorem C10_total_safety {σ : Type} (ops : RngOps σ) (s : σ) (hspec : RngSpec ops) :
    (gen_main_trials ops s).length = 120 ∧ (gen_wm_trials ops s).length = 24 ∧
    ∀ i ∈ (genMainResult ops s).1, i < base.length := by
  refine ⟨gen_main_trials_length hspec s, ?_, ?_⟩
  · exact (hspec.shuffleWm_perm wmBase s).length_eq.trans (by decide)
  · intro i hi
    exact List.mem_range.mp ((genMainResult_perm hspec s).mem_iff.mp hi)

set_option maxRecDepth 10000 in
/-- Witness for C10 at the identity stream and the first placed index. -/
theorem C10_total_safety_witness :
    RngSpec idOps ∧ (gen_main_trials idOps ()).length = 120 ∧
      (gen_wm_trials idOps ()).length = 24 ∧
      0 ∈ (genMainResult idOps ()).1 ∧ 0 < base.length :=
  ⟨rngSpec_idOps, (C10_total_safety idOps () rngSpec_idOps).1,
    (C10_total_safety idOps () rngSpec_idOps).2.1, by decide,
    (C10_total_safety idOps () rngSpec_idOps).2.2 0 (by decide)⟩

end Relational
